import Mathlib

/-!
Shallow embedding of `audio_visualization.py` (repository SeeingTheMusic).

Modelling conventions:
* numpy 2-D arrays are `List (List _)` (list of rows); `shape[1]` is the length
  of the first row (`cols`), `shape[0]` is the list length.  numpy arrays are
  rectangular, so rows all have the same length in every reachable state.
* Python floats are modelled exactly: by `ℚ` where only field operations occur
  (the emphasis detector and the renderer) and by `ℝ` where `np.log`,
  `np.abs` of complex values, or the spec's "for all positive real" force it.
* Python runtime errors (`ZeroDivisionError`, `IndexError`, `ValueError`) are
  modelled with `Except PyError`; Lean's total `x / 0 = 0` is never relied on
  at a point where Python would raise, except where explicitly noted.
* `random.random()` draws are modelled by an abstract stream `rand : ℕ → α`
  together with a counter of consumed values.
-/

set_option maxHeartbeats 1000000
set_option linter.unusedSectionVars false

/- Batteries marks the exact rational-number operations `@[irreducible]`.
Restoring their default reducibility lets `decide` evaluate the embedded
program on concrete rational inputs; proof checking is unaffected (the kernel
never honours reducibility attributes). -/
set_option allowUnsafeReducibility true
attribute [semireducible] Rat.mul Rat.add Rat.sub Rat.div Rat.inv Rat.neg Rat.blt

/-- Python runtime errors raised by the embedded code paths. -/
inductive PyError where
  | valueError
  | indexError
  | zeroDivisionError
deriving DecidableEq

deriving instance DecidableEq for Except

/-- Column count of a 2-D numpy array modelled as a list of rows (`a.shape[1]`).
numpy arrays are rectangular, so the first row is representative. -/
def cols {β : Type*} (m : List (List β)) : ℕ := (m.headD []).length

/-- All entries of a list-of-rows matrix, row-major (used for `np.amin`/`np.amax`,
which reduce over the whole array). -/
def flat {β : Type*} : List (List β) → List β
  | [] => []
  | r :: rs => r ++ flat rs

/-- Elementwise map over a matrix: numpy broadcasted scalar operations. -/
def mapAll {β γ : Type*} (f : β → γ) (m : List (List β)) : List (List γ) :=
  m.map (List.map f)

/-- Entry `m[i, j]` of a matrix (indices always in bounds at use sites;
numpy arrays are rectangular). -/
def entry (m : List (List ℝ)) (i j : ℕ) : ℝ := (m.getD i []).getD j 0

/-- Checked numpy element access `m[j, i]`: out-of-bounds raises `IndexError`. -/
def npGet {β : Type*} (m : List (List β)) (j i : ℕ) : Except PyError β :=
  match m[j]? with
  | none => Except.error PyError.indexError
  | some r =>
    match r[i]? with
    | none => Except.error PyError.indexError
    | some x => Except.ok x

/-- True of an `Except` value exactly when it is `.ok` (no exception raised). -/
def okB {β : Type*} (r : Except PyError β) : Bool :=
  match r with
  | Except.ok _ => true
  | Except.error _ => false

/-- Membership of `i` in the payload of a successful `find_points` run;
false if the run raised. -/
def okMem (r : Except PyError (List ℕ)) (i : ℕ) : Prop :=
  match r with
  | Except.ok l => i ∈ l
  | Except.error _ => False

variable {α : Type*} [LinearOrderedField α]

/-- Source `ratio` (lines 142-149): `return b / (a + b)`. -/
def ratio (a b : α) : α := b / (a + b)

/-- Source line 107: `test1 = np.average(bins0, axis=0)` — one value per frame,
the arithmetic mean across the band axis. -/
def meanCurve (bins0 : List (List α)) : List α :=
  (List.range (cols bins0)).map
    (fun j => (bins0.map (fun r => r.getD j 0)).sum / (bins0.length : α))

/-- Source line 110: `neighbors = test1[max(0, i - horizon):min(test1.shape[0], i + horizon + 1)]`.
Python `max(0, i - horizon)` is ℕ truncated subtraction `i - horizon`. -/
def window (test1 : List α) (horizon i : ℕ) : List α :=
  (test1.drop (i - horizon)).take (min test1.length (i + horizon + 1) - (i - horizon))

/-- Source lines 111-114: count of neighbors (slice includes `i` itself) with
`neighbor >= test1[i]`. -/
def num_geq (test1 : List α) (horizon i : ℕ) : ℕ :=
  (window test1 horizon i).countP (fun x => decide (test1.getD i 0 ≤ x))

/-- Source lines 115-116 condition: `result = (num_geq - 1) / (neighbors.shape[0] - 1)`
and `result >= threshold` (integer operands are promoted to exact field values). -/
def keepB (test1 : List α) (threshold : α) (horizon i : ℕ) : Bool :=
  decide (threshold ≤ ((num_geq test1 horizon i : α) - 1) /
    (((window test1 horizon i).length : α) - 1))

/-- One iteration of the source loop (lines 109-117) for frame `i`: Python's
division raises `ZeroDivisionError` when `neighbors.shape[0] - 1 == 0`,
otherwise `i` is appended to `keep` iff `result >= threshold`. -/
def stepFP (test1 : List α) (threshold : α) (horizon : ℕ) (keep : List ℕ) (i : ℕ) :
    Except PyError (List ℕ) :=
  if (window test1 horizon i).length = 1 then Except.error PyError.zeroDivisionError
  else if keepB test1 threshold horizon i then Except.ok (keep ++ [i])
  else Except.ok keep

/-- Source `find_points` (lines 100-118).  The module-level variable `bins0` that
the Python function reads is passed explicitly (standard state-passing for
global state); `threshold` and `horizon` are its only declared parameters. -/
def find_points (bins0 : List (List α)) (threshold : α) (horizon : ℕ) :
    Except PyError (List ℕ) :=
  (List.range (meanCurve bins0).length).foldlM
    (stepFP (meanCurve bins0) threshold horizon) []

/-- Modelled from the spec: the re-architected emphasis detector that takes the
aggregated energy curve as an explicit parameter instead of reading module
state ("re-architect as an explicit function parameter (the aggregated energy
curve) passed by the caller; no hidden state"). -/
def find_points_curve (test1 : List α) (threshold : α) (horizon : ℕ) :
    Except PyError (List ℕ) :=
  (List.range test1.length).foldlM (stepFP test1 threshold horizon) []

/-- The claim's window for frame `i`: indices `[i - horizon, i + horizon]`
clipped to the array bounds `[0, n)`. -/
def clipWin (n horizon i : ℕ) : List ℕ :=
  (List.range n).filter (fun j => decide (i - horizon ≤ j) && decide (j ≤ i + horizon))

/-- Size of the claim's clipped window. -/
def wcl (n horizon i : ℕ) : ℕ := (clipWin n horizon i).length

/-- Count, over the claim's clipped window, of neighbors (including self) whose
value is `≥` the value at `i`. -/
def kcl (test1 : List α) (horizon i : ℕ) : ℕ :=
  (clipWin test1.length horizon i).countP
    (fun j => decide (test1.getD i 0 ≤ test1.getD j 0))

/-- Modelled from the spec claim C3's words: flag frame `i` exactly when the
fraction of neighbors including self with value `≥` the value at `i` meets or
exceeds the threshold. -/
def specFindPoints (bins0 : List (List α)) (threshold : α) (horizon : ℕ) : List ℕ :=
  (List.range (meanCurve bins0).length).filter
    (fun i => decide (threshold ≤ (kcl (meanCurve bins0) horizon i : α) /
      (wcl (meanCurve bins0).length horizon i : α)))

/-- One ring of the circle animation: `plt.Circle((x, y), radius, color=...,
linewidth=circle_width)` from source lines 183-190 (the constant
`alpha=0.6, fill=False` arguments carry no claim content and are elided). -/
structure PyCircle (β : Type*) where
  center : β × β
  radius : β
  color : String
  linewidth : β
deriving DecidableEq

/-- One snapped animation frame: the background rectangle's facecolor (source
line 191) and the rings drawn on top of it (lines 196-197). -/
structure PyFrame (β : Type*) where
  bg : β × β × β
  circles : List (PyCircle β)
deriving DecidableEq

/-- Default frame used only as the `getD` fallback in theorem statements. -/
def defFrame : PyFrame α := { bg := (0, 0, 0), circles := [] }

/-- Source line 173: `colors = ['magenta', 'yellow', 'cyan', 'red', 'green', 'blue']`. -/
def colors : List String := ["magenta", "yellow", "cyan", "red", "green", "blue"]

/-- The background-color update at frame `i` (source lines 176-180): on an
emphasis-flagged frame a fresh random RGB triple is drawn (three consecutive
`random.random()` calls), otherwise the color decays componentwise by the
float `0.9 = 9/10`; without color changing, the color set on line 172 is kept.
The second component counts the `random.random()` draws consumed so far. -/
def colorStep (color_changing : Bool) (rand : ℕ → α) (points : List ℕ) (i : ℕ)
    (ck : (α × α × α) × ℕ) : (α × α × α) × ℕ :=
  if color_changing then
    if i ∈ points then ((rand ck.2, rand (ck.2 + 1), rand (ck.2 + 2)), ck.2 + 3)
    else ((ck.1.1 * (9 / 10), ck.1.2.1 * (9 / 10), ck.1.2.2 * (9 / 10)), ck.2)
  else ck

/-- The rings built for frame `i` (source lines 181-190): mono draws each band
at the center with radius `bins0[j, i] / 2`; stereo places each band at the
`ratio`-balance point with radius `(bins0[j, i] + bins1[j, i]) / 4`.  Each
numpy access is checked: an out-of-range index raises `IndexError`. -/
def circlesOf (bins0 : List (List α)) (bins1 : Option (List (List α)))
    (circle_width : α) (i : ℕ) : Except PyError (List (PyCircle α)) :=
  match bins1 with
  | none =>
    (List.range bins0.length).mapM (fun j =>
      (npGet bins0 j i).map (fun v =>
        { center := ((1 : α) / 2, (1 : α) / 2), radius := v / 2,
          color := colors.getD (j % colors.length) "",
          linewidth := circle_width }))
  | some b1 =>
    (List.range bins0.length).mapM (fun j =>
      (npGet bins0 j i).bind (fun v0 => (npGet b1 j i).map (fun v1 =>
        { center := ( ratio v0 v1, (1 : α) / 2), radius := (v0 + v1) / 4,
          color := colors.getD (j % colors.length) "",
          linewidth := circle_width })))

/-- One iteration of the source rendering loop (lines 175-198) for frame `i`.
State: (current background color, number of `random.random()` draws consumed,
frames snapped so far). -/
def stepCM (bins0 : List (List α)) (bins1 : Option (List (List α)))
    (color_changing : Bool) (circle_width : α) (rand : ℕ → α) (points : List ℕ)
    (s : (α × α × α) × ℕ × List (PyFrame α)) (i : ℕ) :
    Except PyError ((α × α × α) × ℕ × List (PyFrame α)) :=
  let ck := colorStep color_changing rand points i (s.1, s.2.1)
  (circlesOf bins0 bins1 circle_width i).map
    (fun cs => (ck.1, ck.2, s.2.2 ++ [{ bg := ck.1, circles := cs }]))

/-- Source `circle_mode` (lines 152-203), up to the video-encoding side effects:
the sequence of snapped frames.  `bins1 = none` is Python `bins1 is None`
(mono).  When `color_changing`, line 170 calls `find_points(27/30, 7)`, whose
module-level `bins0` coincides with the `bins0` rendered here in the main
script's flow; any exception it raises propagates.  The initial background
color is `(1, 1, 1)` (line 172). -/
def circle_mode (bins0 : List (List α)) (bins1 : Option (List (List α)))
    (color_changing : Bool) (circle_width : α) (rand : ℕ → α) :
    Except PyError (List (PyFrame α)) :=
  (if color_changing then find_points bins0 (27 / 30) 7 else Except.ok []).bind
    (fun points =>
      ((List.range (cols bins0)).foldlM
        (stepCM bins0 bins1 color_changing circle_width rand points)
        ((1, 1, 1), 0, [])).map (fun s => s.2.2))

/-- Modelled from the spec claim C10's words: state (background color, draws
consumed) before frame `i`; initially the color is `(1, 1, 1)`; an
emphasis-flagged frame draws a fresh random RGB triple, any other frame decays
the previous color componentwise by the fixed factor `0.9`. -/
def specColorState (points : List ℕ) (rand : ℕ → α) : ℕ → (α × α × α) × ℕ
  | 0 => ((1, 1, 1), 0)
  | i + 1 =>
    let s := specColorState points rand i
    if i ∈ points then ((rand s.2, rand (s.2 + 1), rand (s.2 + 2)), s.2 + 3)
    else ((s.1.1 * (9 / 10), s.1.2.1 * (9 / 10), s.1.2.2 * (9 / 10)), s.2)

/-- Modelled from the spec claim C10's words: the background color shown at
frame `i`. -/
def specColor (points : List ℕ) (rand : ℕ → α) (i : ℕ) : α × α × α :=
  (specColorState points rand (i + 1)).1

/-- `np.amin` over a nonempty 1-D array (the `[]` case is unreachable at use
sites: numpy raises on empty input and every claim assumes nonemptiness). -/
noncomputable def listMin : List ℝ → ℝ
  | [] => 0
  | x :: xs => xs.foldl min x

/-- `np.amax` over a nonempty 1-D array. -/
noncomputable def listMax : List ℝ → ℝ
  | [] => 0
  | x :: xs => xs.foldl max x

/-- `np.amin(bins)` over the whole 2-D array. -/
noncomputable def minAll (m : List (List ℝ)) : ℝ := listMin (flat m)

/-- `np.amax(bins)` over the whole 2-D array. -/
noncomputable def maxAll (m : List (List ℝ)) : ℝ := listMax (flat m)

/-- Source line 87: `bins[bins == 0] = 1`. -/
noncomputable def withOnes (bins : List (List ℝ)) : List (List ℝ) :=
  mapAll (fun x => if x = 0 then 1 else x) bins

/-- Source line 88: `bins = np.log(bins)` (elementwise natural log). -/
noncomputable def logged (bins : List (List ℝ)) : List (List ℝ) :=
  mapAll Real.log (withOnes bins)

/-- Source line 90: `bins[bins == 0] = np.amin(bins)` — the minimum is that of
the array before the assignment (numpy evaluates the right-hand side first). -/
noncomputable def zeroPatched (bins : List (List ℝ)) : List (List ℝ) :=
  mapAll (fun x => if x = 0 then minAll (logged bins) else x) (logged bins)

/-- Source line 91: `bins = bins - np.amin(bins)`. -/
noncomputable def shifted (bins : List (List ℝ)) : List (List ℝ) :=
  mapAll (fun x => x - minAll (zeroPatched bins)) (zeroPatched bins)

/-- Source line 92: `bins = bins / np.amax(bins)`. -/
noncomputable def rescaled (bins : List (List ℝ)) : List (List ℝ) :=
  mapAll (fun x => x / maxAll (shifted bins)) (shifted bins)

/-- Source line 94: `bins[bins < 0.25] = 0.25` (the float `0.25` is exact). -/
noncomputable def clipped (bins : List (List ℝ)) : List (List ℝ) :=
  mapAll (fun x => if x < 1 / 4 then 1 / 4 else x) (rescaled bins)

/-- Source line 95: `bins = bins - 0.25`. -/
noncomputable def zoomShifted (bins : List (List ℝ)) : List (List ℝ) :=
  mapAll (fun x => x - 1 / 4) (clipped bins)

/-- Source `normalization_and_zooming` (lines 77-97): the composition of the
steps above followed by line 96, `bins = bins / np.amax(bins)`. -/
noncomputable def normalization_and_zooming (bins : List (List ℝ)) : List (List ℝ) :=
  mapAll (fun x => x / maxAll (zoomShifted bins)) (zoomShifted bins)

/-- Source `get_bin_average` (lines 17-29): the (complex) arithmetic mean of
`Zxx[bin_start:bin_end, column_no]`; numpy slicing clips out-of-range bounds. -/
noncomputable def get_bin_average (column_no bin_start bin_end : ℕ)
    (Zxx : List (List ℂ)) : ℂ :=
  let slice := ((Zxx.drop bin_start).take (bin_end - bin_start)).map
    (fun r => r.getD column_no 0)
  slice.sum / (slice.length : ℂ)

/-- Source lines 44-46 (and 59-61): append one all-zero column to `Zxx` and
flip the frequency axis (`np.flip(axis=0)` is row reversal). -/
noncomputable def padFlip (Zxx : List (List ℂ)) : List (List ℂ) :=
  (Zxx.map (fun r => r ++ [0])).reverse

/-- Source lines 48-52 (and 63-67): the unnormalized bins array, one row per
band `i` (half-open boundary range `[bin_boundaries[i], bin_boundaries[i+1])`),
one column per STFT frame, each entry `np.abs(get_bin_average(...))`.  The
source fills a `np.zeros` array with a column-outer loop; the row-major build
below produces the identical matrix. -/
noncomputable def rawBins (bin_boundaries : List ℕ) (Zxx : List (List ℂ)) :
    List (List ℝ) :=
  (List.range (bin_boundaries.length - 1)).map (fun i =>
    (List.range (cols Zxx)).map (fun column =>
      Complex.abs (get_bin_average column (bin_boundaries.getD i 0)
        (bin_boundaries.getD (i + 1) 0) Zxx)))

/-- Return value of `wav_to_bins`: a single 2-D array in mono mode (line 74),
a pair of them in stereo mode (line 72). -/
inductive BinsResult (β : Type*) where
  | mono (bins0 : List (List β))
  | stereo (bins0 bins1 : List (List β))

/-- First channel of a `wav_to_bins` result. -/
def bins0Of {β : Type*} : BinsResult β → List (List β)
  | BinsResult.mono b => b
  | BinsResult.stereo b0 _ => b0

/-- Whether `wav_to_bins` returned a single array rather than a pair. -/
def isMono {β : Type*} : BinsResult β → Bool
  | BinsResult.mono _ => true
  | BinsResult.stereo _ _ => false

/-- Source `wav_to_bins` (lines 32-74) from the point after the external
`scipy.io.wavfile.read` / `scipy.signal.stft` calls, whose outputs `Zxx0`
(and, in stereo mode, `Zxx1`) are taken as inputs: pad and flip each
spectrogram, bin it, normalize, and return one array (mono) or a pair
(stereo). -/
noncomputable def wav_to_bins (Zxx0 Zxx1 : List (List ℂ)) (mono : Bool)
    (bin_boundaries : List ℕ) : BinsResult ℝ :=
  let bins0 := normalization_and_zooming (rawBins bin_boundaries (padFlip Zxx0))
  if mono then BinsResult.mono bins0
  else BinsResult.stereo bins0
    (normalization_and_zooming (rawBins bin_boundaries (padFlip Zxx1)))

/-- The main script's two-target unpacking `bins0, bins1 = wav_to_bins(...)`
(line 240): a pair unpacks componentwise; a single 2-D numpy array iterates
over its first axis and Python raises `ValueError` unless it has exactly two
rows. -/
def mainUnpack {β : Type*} : BinsResult β → Except PyError Unit
  | BinsResult.stereo _ _ => Except.ok ()
  | BinsResult.mono b =>
    if b.length = 2 then Except.ok () else Except.error PyError.valueError

/-! ### Lemmas about the emphasis detector -/

universe u

@[simp]
theorem exceptPure {β : Type u} (a : β) : (pure a : Except PyError β) = Except.ok a := rfl

@[simp]
theorem exceptOkBind {β γ : Type u} (a : β) (f : β → Except PyError γ) :
    (Except.ok a : Except PyError β) >>= f = f a := rfl

@[simp]
theorem exceptErrorBind {β γ : Type u} (e : PyError) (f : β → Except PyError γ) :
    (Except.error e : Except PyError β) >>= f = (Except.error e : Except PyError γ) := rfl

@[simp]
theorem exceptMapOk {β γ : Type u} (f : β → γ) (a : β) :
    (Except.ok a : Except PyError β).map f = Except.ok (f a) := rfl

@[simp]
theorem exceptMapError {β γ : Type u} (f : β → γ) (e : PyError) :
    (Except.error e : Except PyError β).map f = (Except.error e : Except PyError γ) := rfl

@[simp]
theorem exceptBindEq {β γ : Type u} (x : Except PyError β) (f : β → Except PyError γ) :
    x.bind f = x >>= f := rfl

theorem meanCurve_length (bins0 : List (List α)) :
    (meanCurve bins0).length = cols bins0 := by
  simp [meanCurve]

theorem window_length (test1 : List α) (horizon i : ℕ) :
    (window test1 horizon i).length =
      min test1.length (i + horizon + 1) - (i - horizon) := by
  simp only [window, List.length_take, List.length_drop]
  omega

theorem foldFP_ok (test1 : List α) (t : α) (h : ℕ) :
    ∀ (l : List ℕ) (acc : List ℕ),
      (∀ i ∈ l, (window test1 h i).length ≠ 1) →
      List.foldlM (stepFP test1 t h) acc l =
        Except.ok (acc ++ l.filter (fun i => keepB test1 t h i)) := by
  intro l
  induction l with
  | nil => intro acc _; simp
  | cons i l ih =>
    intro acc hw
    have hwi : (window test1 h i).length ≠ 1 := hw i (by simp)
    have hrest : ∀ j ∈ l, (window test1 h j).length ≠ 1 :=
      fun j hj => hw j (by simp [hj])
    by_cases hk : keepB test1 t h i
    · simp [List.foldlM_cons, stepFP, hwi, hk, ih (acc ++ [i]) hrest, List.filter_cons]
    · simp [List.foldlM_cons, stepFP, hwi, hk, ih acc hrest, List.filter_cons]

theorem foldFP_ok_inv (test1 : List α) (t : α) (h : ℕ) :
    ∀ (l : List ℕ) (acc res : List ℕ),
      List.foldlM (stepFP test1 t h) acc l = Except.ok res →
      res = acc ++ l.filter (fun i => keepB test1 t h i) := by
  intro l
  induction l with
  | nil => intro acc res hr; simpa using hr.symm
  | cons i l ih =>
    intro acc res hr
    by_cases hwi : (window test1 h i).length = 1
    · rw [List.foldlM_cons] at hr
      simp [stepFP, hwi] at hr
    · by_cases hk : keepB test1 t h i
      · rw [List.foldlM_cons] at hr
        simp only [stepFP, hwi, if_false, hk, if_true] at hr
        simpa [List.filter_cons, hk] using ih (acc ++ [i]) res (by simpa using hr)
      · rw [List.foldlM_cons] at hr
        simp only [stepFP, hwi, if_false, hk] at hr
        simpa [List.filter_cons, hk] using ih acc res (by simpa using hr)

theorem find_points_eq_filter (bins0 : List (List α)) (t : α) (h : ℕ)
    (hw : ∀ i < (meanCurve bins0).length,
      (window (meanCurve bins0) h i).length ≠ 1) :
    find_points bins0 t h = Except.ok
      ((List.range (meanCurve bins0).length).filter
        (fun i => keepB (meanCurve bins0) t h i)) := by
  rw [find_points]
  rw [foldFP_ok (meanCurve bins0) t h _ [] (fun i hi => hw i (List.mem_range.mp hi))]
  simp

theorem find_points_ok_filter (bins0 : List (List α)) (t : α) (h : ℕ) (l : List ℕ)
    (hok : find_points bins0 t h = Except.ok l) :
    l = (List.range (meanCurve bins0).length).filter
      (fun i => keepB (meanCurve bins0) t h i) := by
  have := foldFP_ok_inv (meanCurve bins0) t h (List.range (meanCurve bins0).length)
    [] l hok
  simpa using this

theorem clipWin_eq_range' (n h i : ℕ) :
    clipWin n h i = List.range' (i - h) (min n (i + h + 1) - (i - h)) := by
  induction n with
  | zero => simp [clipWin]
  | succ n ih =>
    rw [clipWin, List.range_succ, List.filter_append, ← clipWin, ih]
    by_cases hlo : i - h ≤ n
    · by_cases hhi : n ≤ i + h
      · have h1 : min (n + 1) (i + h + 1) - (i - h) = (min n (i + h + 1) - (i - h)) + 1 := by
          omega
        have h2 : min n (i + h + 1) = n := by omega
        rw [h1, List.range'_concat]
        have h3 : i - h + 1 * (min n (i + h + 1) - (i - h)) = n := by omega
        rw [h3]
        simp only [List.filter_cons, List.filter_nil]
        have hc : (decide (i - h ≤ n) && decide (n ≤ i + h)) = true := by
          simp [hlo, hhi]
        rw [hc]
        simp
      · have h1 : min (n + 1) (i + h + 1) = min n (i + h + 1) := by omega
        rw [h1]
        have : ¬ (n ≤ i + h) := hhi
        simp [this]
    · have h1 : min (n + 1) (i + h + 1) - (i - h) = 0 := by omega
      have h2 : min n (i + h + 1) - (i - h) = 0 := by omega
      rw [h1, h2]
      have hc : (decide (i - h ≤ n) && decide (n ≤ i + h)) = false := by
        simp only [Bool.and_eq_false_iff, decide_eq_false_iff_not]
        left
        exact hlo
      simp only [List.filter_cons, List.filter_nil, hc]
      simp

theorem window_eq_map_clipWin (test1 : List α) (h i : ℕ) :
    window test1 h i = (clipWin test1.length h i).map (fun j => test1.getD j 0) := by
  rw [clipWin_eq_range']
  apply List.ext_getElem
  · simp [window_length, List.length_range']
  · intro k h1 h2
    rw [window_length] at h1
    have hk : i - h + k < test1.length := by omega
    simp only [window, List.getElem_take, List.getElem_drop, List.getElem_map,
      List.getElem_range', Nat.one_mul]
    rw [List.getD_eq_getElem test1 0 hk]

theorem num_geq_eq_kcl (test1 : List α) (h i : ℕ) :
    num_geq test1 h i = kcl test1 h i := by
  rw [num_geq, kcl, window_eq_map_clipWin, List.countP_map]
  rfl

theorem window_length_eq_wcl (test1 : List α) (h i : ℕ) :
    (window test1 h i).length = wcl test1.length h i := by
  rw [wcl, window_eq_map_clipWin, List.length_map]

/-! ### C3: what the emphasis detector computes per frame -/

/-- C3 (counterexample): the claim says frame `i` is flagged exactly when the
fraction of neighbors including self with value `≥ test1[i]` meets the
threshold.  On the curve `[0, 1, 2]` with `horizon = 2` and `threshold = 1/3`,
the claimed fraction at the last frame is `1/3` (one of three window members),
so the claim flags all of `[0, 1, 2]`; the code computes
`(num_geq - 1) / (len - 1) = 0` there and returns only `[0, 1]`. -/
theorem c3_counterexample :
    find_points [[(0 : ℚ), 1, 2]] (1 / 3) 2 = Except.ok [0, 1] ∧
      specFindPoints [[(0 : ℚ), 1, 2]] (1 / 3) 2 = [0, 1, 2] := by
  constructor
  · decide
  · decide

/-- C3 (amended): on a run of `find_points` that raises no exception, frame `i`
is flagged exactly when `i` is in range and the fraction of neighbors
excluding self — both numerator and denominator drop the frame itself, i.e.
`(kcl - 1) / (wcl - 1)` over the window `[i - horizon, i + horizon]` clipped
to the array bounds — meets or exceeds the threshold. -/
theorem c3_amended_membership (bins0 : List (List ℚ)) (t : ℚ) (hz i : ℕ)
    (l : List ℕ) (hok : find_points bins0 t hz = Except.ok l) :
    i ∈ l ↔ i < (meanCurve bins0).length ∧
      t ≤ ((kcl (meanCurve bins0) hz i : ℚ) - 1) /
        ((wcl (meanCurve bins0).length hz i : ℚ) - 1) := by
  have hiff : (keepB (meanCurve bins0) t hz i = true) ↔
      t ≤ ((kcl (meanCurve bins0) hz i : ℚ) - 1) /
        ((wcl (meanCurve bins0).length hz i : ℚ) - 1) := by
    rw [keepB, decide_eq_true_iff, num_geq_eq_kcl, window_length_eq_wcl]
  rw [find_points_ok_filter bins0 t hz l hok, List.mem_filter, List.mem_range, hiff]

/-- C3 witness: the amended characterization evaluated on the curve
`[0, 1, 2]` with `threshold = 1/2`, `horizon = 1`, at the last frame. -/
theorem c3_witness :
    find_points [[(0 : ℚ), 1, 2]] (1 / 2) 1 = Except.ok [0, 1] ∧
      (2 ∈ [0, 1] ↔ 2 < (meanCurve [[(0 : ℚ), 1, 2]]).length ∧
        (1 / 2 : ℚ) ≤ ((kcl (meanCurve [[(0 : ℚ), 1, 2]]) 1 2 : ℚ) - 1) /
          ((wcl (meanCurve [[(0 : ℚ), 1, 2]]).length 1 2 : ℚ) - 1)) :=
  ⟨by decide, c3_amended_membership [[(0 : ℚ), 1, 2]] (1 / 2) 1 2 [0, 1] (by decide)⟩

/-! ### C9: behaviour when the horizon reaches the curve length -/

/-- C9 (counterexample): the claim says `find_points` fails with `ValueError`
whenever `horizon ≥` the curve length.  With the two-frame curve `[0, 1]` and
`horizon = 2 ≥ 2` the code raises nothing and returns `[0]`. -/
theorem c9_counterexample :
    cols [[(0 : ℚ), 1]] ≤ 2 ∧ find_points [[(0 : ℚ), 1]] 1 2 = Except.ok [0] := by
  constructor
  · decide
  · decide

/-- C9 (amended): `find_points` performs no horizon validation: for every curve
with at least two frames and every `horizon ≥` the frame count, every window is
the whole curve (length `≥ 2`), the denominator is nonzero, and the function
returns normally — no `ValueError` (nor any other exception) is raised. -/
theorem c9_amended_no_error (bins0 : List (List ℚ)) (t : ℚ) (h : ℕ)
    (h2 : 2 ≤ cols bins0) (hh : cols bins0 ≤ h) :
    okB (find_points bins0 t h) = true := by
  have hn : (meanCurve bins0).length = cols bins0 := meanCurve_length bins0
  rw [find_points_eq_filter bins0 t h ?_]
  · rfl
  · intro i hi
    rw [window_length]
    rw [hn] at hi ⊢
    omega

/-- C9 witness: the amended no-error theorem evaluated on the curve `[0, 1]`
with `horizon = 2`. -/
theorem c9_witness :
    2 ≤ cols [[(0 : ℚ), 1]] ∧ cols [[(0 : ℚ), 1]] ≤ 2 ∧
      okB (find_points [[(0 : ℚ), 1]] 1 2) = true :=
  ⟨by decide, by decide,
    c9_amended_no_error [[(0 : ℚ), 1]] 1 2 (by decide) (by decide)⟩

/-! ### C2: strictly increasing curves -/

/-- C2 (counterexample): the claim says the last index of a strictly
monotonically increasing curve is flagged at any threshold `≤ 1`.  On the
strictly increasing curve `[0, 1, 2]` with `threshold = 1` and `horizon = 1`
the code returns `[0]`: the last index `2` is not flagged (no neighbor other
than itself is `≥ 2`, so its score is `0`). -/
theorem c2_counterexample :
    (meanCurve [[(0 : ℚ), 1, 2]]).Pairwise (· < ·) ∧ (1 : ℚ) ≤ 1 ∧
      find_points [[(0 : ℚ), 1, 2]] 1 1 = Except.ok [0] ∧
      (2 : ℕ) ∉ ([0] : List ℕ) := by
  refine ⟨by decide, by decide, by decide, by decide⟩

/-- C2 (amended): for a strictly monotonically increasing energy curve (at
least two frames) and any `horizon ≥ 1`, it is the FIRST index that
`find_points` always flags at any threshold `≤ 1`: every window neighbor of
frame `0` has value `≥` the value at `0`, so its score is exactly `1`.  (The
last index is dominated by every neighbor and scores `0`.) -/
theorem c2_amended_first_flagged (bins0 : List (List ℚ)) (t : ℚ) (h : ℕ)
    (hn : 2 ≤ (meanCurve bins0).length) (hh : 1 ≤ h) (ht : t ≤ 1)
    (hmono : (meanCurve bins0).Pairwise (· < ·)) :
    okMem (find_points bins0 t h) 0 := by
  have hw : ∀ i < (meanCurve bins0).length,
      (window (meanCurve bins0) h i).length ≠ 1 := by
    intro i hi
    rw [window_length]
    omega
  rw [find_points_eq_filter bins0 t h hw]
  simp only [okMem]
  rw [List.mem_filter, List.mem_range]
  refine ⟨by omega, ?_⟩
  set test1 := meanCurve bins0 with htest
  have hwin0 : window test1 h 0 = test1.take (min test1.length (h + 1)) := by
    simp [window]
  have hlen : (window test1 h 0).length = min test1.length (h + 1) := by
    rw [window_length]
    omega
  have hcount : num_geq test1 h 0 = (window test1 h 0).length := by
    rw [num_geq, List.countP_eq_length]
    intro x hx
    rw [decide_eq_true_iff]
    rw [hwin0] at hx
    have hx' : x ∈ test1 := List.take_subset _ _ hx
    obtain ⟨j, hj, rfl⟩ := List.mem_iff_getElem.mp hx'
    rw [List.getD_eq_getElem test1 0 (by omega)]
    rcases Nat.eq_zero_or_pos j with hj0 | hjpos
    · subst hj0
      exact le_refl _
    · exact le_of_lt (List.pairwise_iff_getElem.mp hmono 0 j (by omega) hj hjpos)
  rw [keepB, decide_eq_true_iff, hcount]
  have h2 : (2 : ℚ) ≤ ((window test1 h 0).length : ℚ) := by
    have : 2 ≤ (window test1 h 0).length := by
      rw [hlen]
      omega
    exact_mod_cast this
  rw [div_self (by linarith : ((window test1 h 0).length : ℚ) - 1 ≠ 0)]
  exact ht

/-- C2 witness: the amended theorem evaluated on the strictly increasing curve
`[0, 1, 2]` with `threshold = 1` and `horizon = 1`: the first index is
flagged. -/
theorem c2_witness :
    2 ≤ (meanCurve [[(0 : ℚ), 1, 2]]).length ∧ 1 ≤ 1 ∧ (1 : ℚ) ≤ 1 ∧
      (meanCurve [[(0 : ℚ), 1, 2]]).Pairwise (· < ·) ∧
      okMem (find_points [[(0 : ℚ), 1, 2]] 1 1) 0 :=
  ⟨by decide, by decide, by decide, by decide,
    c2_amended_first_flagged [[(0 : ℚ), 1, 2]] 1 1 (by decide) (by decide)
      (by decide) (by decide)⟩

/-! ### C7: aggregation by the arithmetic mean across bands -/

/-- C7: `find_points` reads the whole 2-D `bins0` only through its band-mean
curve `np.average(bins0, axis=0)` (one value per frame): it coincides with the
explicit-curve detector applied to `meanCurve bins0`, and two `bins0` arrays
with the same mean curve give identical results for every threshold and
horizon (determinism across calls is purity of the embedding). -/
theorem c7_mean_aggregation (b1 b2 : List (List ℚ)) (t : ℚ) (h : ℕ)
    (hm : meanCurve b1 = meanCurve b2) :
    find_points b1 t h = find_points_curve (meanCurve b1) t h ∧
      find_points b1 t h = find_points b2 t h := by
  constructor
  · rfl
  · rw [find_points, find_points, hm]

/-- C7 witness: the stereo-like array `[[0, 1], [2, 3]]` and the single-band
array `[[1, 2]]` share the band-mean curve `[1, 2]` and produce the same
emphasis points. -/
theorem c7_witness :
    meanCurve [[(0 : ℚ), 1], [2, 3]] = meanCurve [[(1 : ℚ), 2]] ∧
      (find_points [[(0 : ℚ), 1], [2, 3]] (9 / 10) 1 =
          find_points_curve (meanCurve [[(0 : ℚ), 1], [2, 3]]) (9 / 10) 1 ∧
        find_points [[(0 : ℚ), 1], [2, 3]] (9 / 10) 1 =
          find_points [[(1 : ℚ), 2]] (9 / 10) 1) :=
  ⟨by decide, c7_mean_aggregation [[(0 : ℚ), 1], [2, 3]] [[(1 : ℚ), 2]]
    (9 / 10) 1 (by decide)⟩

/-! ### C5: the ratio function -/

/-- C5: for all positive real `a` and `b`, `ratio a b + ratio b a = 1`, and
`ratio a 0 = 0` (for positive `a` the Python division is defined, since
`a + 0 ≠ 0`). -/
theorem c5_ratio_properties (a b : ℝ) (ha : 0 < a) (hb : 0 < b) :
    ratio a b + ratio b a = 1 ∧ ratio a 0 = 0 := by
  constructor
  · rw [ratio, ratio, add_comm b a, div_add_div_same, add_comm b a,
      div_self (by positivity : a + b ≠ 0)]
  · rw [ratio, zero_div]

/-- C5 witness: the ratio identities evaluated at `a = 1`, `b = 2`. -/
theorem c5_witness :
    (0 : ℝ) < 1 ∧ (0 : ℝ) < 2 ∧
      ( ratio (1 : ℝ) 2 + ratio (2 : ℝ) 1 = 1 ∧ ratio (1 : ℝ) 0 = 0) :=
  ⟨by norm_num, by norm_num, c5_ratio_properties 1 2 (by norm_num) (by norm_num)⟩

/-! ### Shape lemmas for the spectral binner -/

theorem mapAll_length {β γ : Type*} (f : β → γ) (m : List (List β)) :
    (mapAll f m).length = m.length := by
  simp [mapAll]

theorem mapAll_shape {β γ : Type*} (f : β → γ) (m : List (List β)) :
    (mapAll f m).map List.length = m.map List.length := by
  simp [mapAll, List.map_map, Function.comp]

theorem naz_length (bins : List (List ℝ)) :
    (normalization_and_zooming bins).length = bins.length := by
  rw [normalization_and_zooming, zoomShifted, clipped, rescaled, shifted,
    zeroPatched, logged, withOnes]
  simp only [mapAll_length]

theorem naz_shape (bins : List (List ℝ)) :
    (normalization_and_zooming bins).map List.length = bins.map List.length := by
  rw [normalization_and_zooming, zoomShifted, clipped, rescaled, shifted,
    zeroPatched, logged, withOnes]
  simp only [mapAll_shape]

theorem rawBins_length (bb : List ℕ) (Z : List (List ℂ)) :
    (rawBins bb Z).length = bb.length - 1 := by
  simp [rawBins]

theorem rawBins_row_length (bb : List ℕ) (Z : List (List ℂ)) :
    ∀ row ∈ rawBins bb Z, row.length = cols Z := by
  intro row hrow
  rw [rawBins] at hrow
  obtain ⟨i, _hi, rfl⟩ := List.mem_map.mp hrow
  simp

theorem wav_to_bins_channel0 (Zxx0 Zxx1 : List (List ℂ)) (mono : Bool)
    (bb : List ℕ) :
    bins0Of (wav_to_bins Zxx0 Zxx1 mono bb) =
      normalization_and_zooming (rawBins bb (padFlip Zxx0)) := by
  rw [wav_to_bins]
  cases mono
  · rfl
  · rfl

/-! ### C6: band count and per-frame completeness -/

/-- C6: for every boundary list (nonempty, as Python `np.zeros` requires a
nonnegative first dimension), the channel-0 bins array returned by
`wav_to_bins` has exactly `len(bin_boundaries) - 1` rows (bands), and every
row carries one value per STFT frame (frames of the padded, flipped
spectrogram), so each frame contains all bands. -/
theorem c6_band_count (Zxx0 Zxx1 : List (List ℂ)) (mono : Bool) (bb : List ℕ)
    (_hbb : 1 ≤ bb.length) :
    (bins0Of (wav_to_bins Zxx0 Zxx1 mono bb)).length = bb.length - 1 ∧
      ∀ row ∈ bins0Of (wav_to_bins Zxx0 Zxx1 mono bb),
        row.length = cols (padFlip Zxx0) := by
  rw [wav_to_bins_channel0]
  constructor
  · rw [naz_length, rawBins_length]
  · intro row hrow
    have hmem : row.length ∈
        (normalization_and_zooming (rawBins bb (padFlip Zxx0))).map List.length :=
      List.mem_map_of_mem List.length hrow
    rw [naz_shape] at hmem
    obtain ⟨r, hr, hlen⟩ := List.mem_map.mp hmem
    rw [← hlen]
    exact rawBins_row_length bb (padFlip Zxx0) r hr

/-- C6 witness: the shape theorem evaluated at a one-sample spectrogram and
the script's boundary list `[4, 37, 93, 371]`. -/
theorem c6_witness :
    1 ≤ ([4, 37, 93, 371] : List ℕ).length ∧
      ((bins0Of (wav_to_bins [[1]] [] true [4, 37, 93, 371])).length =
          ([4, 37, 93, 371] : List ℕ).length - 1 ∧
        ∀ row ∈ bins0Of (wav_to_bins [[1]] [] true [4, 37, 93, 371]),
          row.length = cols (padFlip [[1]])) :=
  ⟨by decide, c6_band_count [[1]] [] true [4, 37, 93, 371] (by decide)⟩

/-! ### C4: mono mode breaks the main script's unpacking -/

/-- C4: with the mono flag set, `wav_to_bins` returns a single 2-D array (not
a pair); with the script's hardcoded boundaries `[4, 37, 93, 371]` that array
has three band rows, so the two-target unpacking `bins0, bins1 = ...` on line
240 raises `ValueError` for every possible spectrogram — mono mode never
reaches rendering. -/
theorem c4_mono_unpack (Zxx0 Zxx1 : List (List ℂ)) :
    isMono (wav_to_bins Zxx0 Zxx1 true [4, 37, 93, 371]) = true ∧
      mainUnpack (wav_to_bins Zxx0 Zxx1 true [4, 37, 93, 371]) =
        Except.error PyError.valueError := by
  have h3 : (normalization_and_zooming
      (rawBins [4, 37, 93, 371] (padFlip Zxx0))).length = 3 := by
    rw [naz_length, rawBins_length]
    rfl
  constructor
  · rfl
  · show mainUnpack (BinsResult.mono (normalization_and_zooming
      (rawBins [4, 37, 93, 371] (padFlip Zxx0)))) = Except.error PyError.valueError
    simp [mainUnpack, h3]

/-! ### Min/max machinery for the normalization pipeline -/

theorem flat_mapAll {β γ : Type*} (f : β → γ) (m : List (List β)) :
    flat (mapAll f m) = (flat m).map f := by
  induction m with
  | nil => rfl
  | cons r rs ih =>
    show List.map f r ++ flat (mapAll f rs) = List.map f (r ++ flat rs)
    rw [ih, List.map_append]

theorem foldl_min_map (f : ℝ → ℝ) (hf : ∀ a b : ℝ, f (min a b) = min (f a) (f b)) :
    ∀ (l : List ℝ) (a : ℝ), (l.map f).foldl min (f a) = f (l.foldl min a) := by
  intro l
  induction l with
  | nil => intro a; rfl
  | cons x xs ih =>
    intro a
    simp only [List.map_cons, List.foldl_cons, ← hf]
    exact ih (min a x)

theorem foldl_max_map (f : ℝ → ℝ) (hf : ∀ a b : ℝ, f (max a b) = max (f a) (f b)) :
    ∀ (l : List ℝ) (a : ℝ), (l.map f).foldl max (f a) = f (l.foldl max a) := by
  intro l
  induction l with
  | nil => intro a; rfl
  | cons x xs ih =>
    intro a
    simp only [List.map_cons, List.foldl_cons, ← hf]
    exact ih (max a x)

theorem listMin_map (f : ℝ → ℝ) (hf : ∀ a b : ℝ, f (min a b) = min (f a) (f b)) :
    ∀ l : List ℝ, l ≠ [] → listMin (l.map f) = f (listMin l) := by
  intro l hl
  match l with
  | [] => exact absurd rfl hl
  | x :: xs => simp [listMin, foldl_min_map f hf]

theorem listMax_map (f : ℝ → ℝ) (hf : ∀ a b : ℝ, f (max a b) = max (f a) (f b)) :
    ∀ l : List ℝ, l ≠ [] → listMax (l.map f) = f (listMax l) := by
  intro l hl
  match l with
  | [] => exact absurd rfl hl
  | x :: xs => simp [listMax, foldl_max_map f hf]

theorem minAll_mapAll (f : ℝ → ℝ) (hf : ∀ a b : ℝ, f (min a b) = min (f a) (f b))
    (m : List (List ℝ)) (hm : flat m ≠ []) :
    minAll (mapAll f m) = f (minAll m) := by
  rw [minAll, flat_mapAll, listMin_map f hf _ hm, minAll]

theorem maxAll_mapAll (f : ℝ → ℝ) (hf : ∀ a b : ℝ, f (max a b) = max (f a) (f b))
    (m : List (List ℝ)) (hm : flat m ≠ []) :
    maxAll (mapAll f m) = f (maxAll m) := by
  rw [maxAll, flat_mapAll, listMax_map f hf _ hm, maxAll]

theorem flat_mapAll_ne_nil {β γ : Type*} (f : β → γ) (m : List (List β))
    (hm : flat m ≠ []) : flat (mapAll f m) ≠ [] := by
  rw [flat_mapAll]
  simpa using hm

theorem flat_ne_nil_of_minAll_lt_maxAll {m : List (List ℝ)}
    (h : minAll m < maxAll m) : flat m ≠ [] := by
  intro hnil
  rw [minAll, maxAll, hnil] at h
  simp [listMin, listMax] at h

theorem mapAll_getD_length {β γ : Type*} (f : β → γ) (m : List (List β)) (i : ℕ)
    (hi : i < m.length) :
    ((mapAll f m).getD i []).length = (m.getD i []).length := by
  have hi' : i < (mapAll f m).length := by
    rw [mapAll_length]
    exact hi
  rw [List.getD_eq_getElem (mapAll f m) [] hi', List.getD_eq_getElem m [] hi]
  simp only [mapAll, List.getElem_map, List.length_map]

theorem entry_mapAll (f : ℝ → ℝ) (m : List (List ℝ)) (i j : ℕ)
    (hi : i < m.length) (hj : j < (m.getD i []).length) :
    entry (mapAll f m) i j = f (entry m i j) := by
  rw [List.getD_eq_getElem m [] hi] at hj
  have hi' : i < (mapAll f m).length := by
    rw [mapAll_length]
    exact hi
  rw [entry, entry, List.getD_eq_getElem m [] hi,
    List.getD_eq_getElem (mapAll f m) [] hi']
  have hmi : (mapAll f m)[i] = List.map f m[i] := by
    simp only [mapAll, List.getElem_map]
  rw [hmi]
  have hj' : j < (List.map f m[i]).length := by simpa using hj
  rw [List.getD_eq_getElem _ 0 hj', List.getD_eq_getElem _ 0 hj, List.getElem_map]

theorem withOnes_length (bins : List (List ℝ)) :
    (withOnes bins).length = bins.length := mapAll_length _ _

theorem logged_length (bins : List (List ℝ)) :
    (logged bins).length = bins.length := by
  rw [logged, mapAll_length, withOnes_length]

theorem zeroPatched_length (bins : List (List ℝ)) :
    (zeroPatched bins).length = bins.length := by
  rw [zeroPatched, mapAll_length, logged_length]

theorem shifted_length (bins : List (List ℝ)) :
    (shifted bins).length = bins.length := by
  rw [shifted, mapAll_length, zeroPatched_length]

theorem rescaled_length (bins : List (List ℝ)) :
    (rescaled bins).length = bins.length := by
  rw [rescaled, mapAll_length, shifted_length]

theorem clipped_length (bins : List (List ℝ)) :
    (clipped bins).length = bins.length := by
  rw [clipped, mapAll_length, rescaled_length]

theorem zoomShifted_length (bins : List (List ℝ)) :
    (zoomShifted bins).length = bins.length := by
  rw [zoomShifted, mapAll_length, clipped_length]

theorem rescaled_getD_length (bins : List (List ℝ)) (i : ℕ) (hi : i < bins.length) :
    ((rescaled bins).getD i []).length = (bins.getD i []).length := by
  rw [rescaled, mapAll_getD_length _ _ _ (by rw [shifted_length]; exact hi),
    shifted, mapAll_getD_length _ _ _ (by rw [zeroPatched_length]; exact hi),
    zeroPatched, mapAll_getD_length _ _ _ (by rw [logged_length]; exact hi),
    logged, mapAll_getD_length _ _ _ (by rw [withOnes_length]; exact hi),
    withOnes, mapAll_getD_length _ _ _ hi]

theorem clipped_getD_length (bins : List (List ℝ)) (i : ℕ) (hi : i < bins.length) :
    ((clipped bins).getD i []).length = (bins.getD i []).length := by
  rw [clipped, mapAll_getD_length _ _ _ (by rw [rescaled_length]; exact hi),
    rescaled_getD_length bins i hi]

theorem zoomShifted_getD_length (bins : List (List ℝ)) (i : ℕ)
    (hi : i < bins.length) :
    ((zoomShifted bins).getD i []).length = (bins.getD i []).length := by
  rw [zoomShifted, mapAll_getD_length _ _ _ (by rw [clipped_length]; exact hi),
    clipped_getD_length bins i hi]

/-! ### C1: the normalization invariant -/

/-- C1 (counterexample): the claim asserts min `0` / max `1` for every
non-empty bins array with at least two distinct values.  The input `[[0, 1]]`
is non-empty with two distinct values, yet after `bins[bins == 0] = 1` both
entries are `1`, the log array is all zero, the array stays constant, and the
final `bins / np.amax(bins)` divides by `0`: numpy produces NaN (here, with
total real division, `0`), so the maximum is `0`, not `1`. -/
theorem c1_counterexample :
    (0 : ℝ) ≠ 1 ∧ maxAll (normalization_and_zooming [[0, 1]]) = 0 := by
  refine ⟨by norm_num, ?_⟩
  have h1 : withOnes [[0, 1]] = [[1, 1]] := by
    norm_num [withOnes, mapAll]
  have h2 : logged [[0, 1]] = [[0, 0]] := by
    rw [logged, h1]
    norm_num [mapAll, Real.log_one]
  have h3 : zeroPatched [[0, 1]] = [[0, 0]] := by
    rw [zeroPatched, h2]
    norm_num [mapAll, minAll, flat, listMin]
  have h4 : shifted [[0, 1]] = [[0, 0]] := by
    rw [shifted, h3]
    norm_num [mapAll, minAll, flat, listMin]
  have h5 : rescaled [[0, 1]] = [[0, 0]] := by
    rw [rescaled, h4]
    norm_num [mapAll, maxAll, flat, listMax]
  have h6 : clipped [[0, 1]] = [[1 / 4, 1 / 4]] := by
    rw [clipped, h5]
    norm_num [mapAll]
  have h7 : zoomShifted [[0, 1]] = [[0, 0]] := by
    rw [zoomShifted, h6]
    norm_num [mapAll]
  rw [normalization_and_zooming, h7]
  norm_num [mapAll, maxAll, flat, listMax]

/-- C1 (amended): whenever the log-processed array — zeros replaced by `1`,
elementwise `log`, zero log-values replaced by the array minimum — is
non-constant, `normalization_and_zooming` returns an array whose minimum is
exactly `0` and maximum exactly `1`, and every entry whose rescaled value fell
below the `0.25` zoom floor is clipped to the floor before the final rescale
and therefore maps to exactly `0`. -/
theorem c1_amended_minmax (bins : List (List ℝ))
    (hnc : minAll (zeroPatched bins) < maxAll (zeroPatched bins)) :
    minAll (normalization_and_zooming bins) = 0 ∧
      maxAll (normalization_and_zooming bins) = 1 ∧
      ∀ i j, i < bins.length → j < (bins.getD i []).length →
        entry (rescaled bins) i j < 1 / 4 →
        entry (normalization_and_zooming bins) i j = 0 := by
  have hne_zp : flat (zeroPatched bins) ≠ [] := flat_ne_nil_of_minAll_lt_maxAll hnc
  have hne_sh : flat (shifted bins) ≠ [] := by
    rw [shifted]
    exact flat_mapAll_ne_nil _ _ hne_zp
  have hne_re : flat (rescaled bins) ≠ [] := by
    rw [rescaled]
    exact flat_mapAll_ne_nil _ _ hne_sh
  have hne_cl : flat (clipped bins) ≠ [] := by
    rw [clipped]
    exact flat_mapAll_ne_nil _ _ hne_re
  have hne_zs : flat (zoomShifted bins) ≠ [] := by
    rw [zoomShifted]
    exact flat_mapAll_ne_nil _ _ hne_cl
  -- stage 4: subtract the minimum
  have hmin_sh : minAll (shifted bins) = 0 := by
    rw [shifted, minAll_mapAll _ (fun a b => (min_sub_sub_right a b _).symm) _ hne_zp,
      sub_self]
  have hmax_sh : maxAll (shifted bins) =
      maxAll (zeroPatched bins) - minAll (zeroPatched bins) := by
    rw [shifted, maxAll_mapAll _ (fun a b => (max_sub_sub_right a b _).symm) _ hne_zp]
  have hD : 0 < maxAll (shifted bins) := by
    rw [hmax_sh]
    linarith
  -- stage 5: divide by the maximum
  have hmin_re : minAll (rescaled bins) = 0 := by
    rw [rescaled, minAll_mapAll _ (fun a b => (min_div_div_right hD.le a b).symm) _ hne_sh,
      hmin_sh, zero_div]
  have hmax_re : maxAll (rescaled bins) = 1 := by
    rw [rescaled, maxAll_mapAll _ (fun a b => (max_div_div_right hD.le a b).symm) _ hne_sh,
      div_self hD.ne']
  -- stage 6: clip at the zoom floor
  have hclip : (fun x : ℝ => if x < 1 / 4 then 1 / 4 else x) =
      fun x : ℝ => max (1 / 4) x := by
    funext x
    rcases lt_or_le x (1 / 4) with hx | hx
    · rw [if_pos hx]
      exact (max_eq_left hx.le).symm
    · rw [if_neg (not_lt.2 hx)]
      exact (max_eq_right hx).symm
  have hmin_cl : minAll (clipped bins) = 1 / 4 := by
    rw [clipped, hclip,
      minAll_mapAll _ (fun a b => max_min_distrib_left _ a b) _ hne_re,
      hmin_re, max_eq_left (by norm_num)]
  have hmax_cl : maxAll (clipped bins) = 1 := by
    rw [clipped, hclip,
      maxAll_mapAll _ (fun a b => sup_sup_distrib_left _ a b) _ hne_re,
      hmax_re, max_eq_right (by norm_num)]
  -- stage 7: subtract the zoom floor
  have hmin_zs : minAll (zoomShifted bins) = 0 := by
    rw [zoomShifted, minAll_mapAll _ (fun a b => (min_sub_sub_right a b _).symm) _ hne_cl,
      hmin_cl, sub_self]
  have hmax_zs : maxAll (zoomShifted bins) = 3 / 4 := by
    rw [zoomShifted, maxAll_mapAll _ (fun a b => (max_sub_sub_right a b _).symm) _ hne_cl,
      hmax_cl]
    norm_num
  have hzs_pos : (0 : ℝ) < maxAll (zoomShifted bins) := by
    rw [hmax_zs]
    norm_num
  -- stage 8: the final rescale
  refine ⟨?_, ?_, ?_⟩
  · rw [normalization_and_zooming,
      minAll_mapAll _ (fun a b => (min_div_div_right hzs_pos.le a b).symm) _ hne_zs,
      hmin_zs, zero_div]
  · rw [normalization_and_zooming,
      maxAll_mapAll _ (fun a b => (max_div_div_right hzs_pos.le a b).symm) _ hne_zs,
      div_self hzs_pos.ne']
  · intro i j hi hj hbelow
    have hi_re : i < (rescaled bins).length := by
      rw [rescaled_length]
      exact hi
    have hj_re : j < ((rescaled bins).getD i []).length := by
      rw [rescaled_getD_length bins i hi]
      exact hj
    have hi_cl : i < (clipped bins).length := by
      rw [clipped_length]
      exact hi
    have hj_cl : j < ((clipped bins).getD i []).length := by
      rw [clipped_getD_length bins i hi]
      exact hj
    have hi_zs : i < (zoomShifted bins).length := by
      rw [zoomShifted_length]
      exact hi
    have hj_zs : j < ((zoomShifted bins).getD i []).length := by
      rw [zoomShifted_getD_length bins i hi]
      exact hj
    have hcl : entry (clipped bins) i j = 1 / 4 := by
      rw [clipped, entry_mapAll _ _ _ _ hi_re hj_re, if_pos hbelow]
    have hzs : entry (zoomShifted bins) i j = 0 := by
      rw [zoomShifted, entry_mapAll _ _ _ _ hi_cl hj_cl, hcl, sub_self]
    rw [normalization_and_zooming, entry_mapAll _ _ _ _ hi_zs hj_zs, hzs, zero_div]

/-- C1 witness: the amended normalization theorem evaluated at the one-band
array `[[e, e^5]]`, whose log-processed form `[[1, 5]]` is non-constant; its
rescaled form is `[[0, 1]]`, so the entry at `(0, 0)` falls below the zoom
floor and is sent to `0`. -/
theorem c1_witness :
    minAll (zeroPatched [[Real.exp 1, Real.exp 5]]) <
        maxAll (zeroPatched [[Real.exp 1, Real.exp 5]]) ∧
      (minAll (normalization_and_zooming [[Real.exp 1, Real.exp 5]]) = 0 ∧
        maxAll (normalization_and_zooming [[Real.exp 1, Real.exp 5]]) = 1 ∧
        ∀ i j, i < ([[Real.exp 1, Real.exp 5]] : List (List ℝ)).length →
          j < (([[Real.exp 1, Real.exp 5]] : List (List ℝ)).getD i []).length →
          entry (rescaled [[Real.exp 1, Real.exp 5]]) i j < 1 / 4 →
          entry (normalization_and_zooming [[Real.exp 1, Real.exp 5]]) i j = 0) := by
  have h1 : withOnes [[Real.exp 1, Real.exp 5]] = [[Real.exp 1, Real.exp 5]] := by
    simp [withOnes, mapAll, if_neg (Real.exp_ne_zero 1), if_neg (Real.exp_ne_zero 5)]
  have h2 : logged [[Real.exp 1, Real.exp 5]] = [[1, 5]] := by
    rw [logged, h1]
    norm_num [mapAll, Real.log_exp]
  have hzp : zeroPatched [[Real.exp 1, Real.exp 5]] = [[1, 5]] := by
    rw [zeroPatched, h2]
    norm_num [mapAll]
  have hh : minAll (zeroPatched [[Real.exp 1, Real.exp 5]]) <
      maxAll (zeroPatched [[Real.exp 1, Real.exp 5]]) := by
    rw [hzp]
    norm_num [minAll, maxAll, flat, listMin, listMax, min_def, max_def]
  exact ⟨hh, c1_amended_minmax _ hh⟩

/-! ### Lemmas about the circle renderer -/

@[simp]
theorem exceptMapMap {β γ δ : Type u} (f : β → γ) (g : γ → δ)
    (x : Except PyError β) : (x.map f).map g = x.map (fun b => g (f b)) := by
  cases x
  · rfl
  · rfl

theorem colorStep_spec (rand : ℕ → α) (points : List ℕ) (i : ℕ) :
    colorStep true rand points i
        ((specColorState points rand i).1, (specColorState points rand i).2) =
      ((specColorState points rand (i + 1)).1,
        (specColorState points rand (i + 1)).2) := by
  rw [colorStep, specColorState]
  by_cases hp : i ∈ points
  · simp [hp]
  · simp [hp]

theorem foldCM_frames (bins0 : List (List α)) (bins1 : Option (List (List α)))
    (cc : Bool) (w : α) (rand : ℕ → α) (points : List ℕ) :
    ∀ (l : List ℕ) (c : α × α × α) (k : ℕ) (fs : List (PyFrame α)),
      List.foldlM (stepCM bins0 bins1 cc w rand points) (c, k, fs) l =
        (List.foldlM (stepCM bins0 bins1 cc w rand points) (c, k, []) l).map
          (fun s => (s.1, s.2.1, fs ++ s.2.2)) := by
  intro l
  induction l with
  | nil =>
    intro c k fs
    simp [List.foldlM_nil, Except.map]
  | cons i l ih =>
    intro c k fs
    rw [List.foldlM_cons, List.foldlM_cons]
    cases hcir : circlesOf bins0 bins1 w i with
    | error e => simp [stepCM, hcir]
    | ok cs =>
      simp only [stepCM, hcir, exceptMapOk, exceptOkBind]
      rw [ih _ _ (fs ++ [_]), ih _ _ ([] ++ [_])]
      simp only [exceptMapMap, List.nil_append, List.append_assoc]

theorem foldCM_spec (bins0 : List (List α)) (bins1 : Option (List (List α)))
    (w : α) (rand : ℕ → α) (points : List ℕ) :
    ∀ (cnt m : ℕ) (res : (α × α × α) × ℕ × List (PyFrame α)),
      List.foldlM (stepCM bins0 bins1 true w rand points)
        ((specColorState points rand m).1, (specColorState points rand m).2, [])
        (List.range' m cnt) = Except.ok res →
      res.1 = (specColorState points rand (m + cnt)).1 ∧
        res.2.1 = (specColorState points rand (m + cnt)).2 ∧
        res.2.2.length = cnt ∧
        ∀ q, q < cnt →
          (res.2.2.getD q defFrame).bg = specColor points rand (m + q) := by
  intro cnt
  induction cnt with
  | zero =>
    intro m res hok
    simp only [List.range', List.foldlM_nil, exceptPure, Except.ok.injEq] at hok
    rw [← hok]
    exact ⟨rfl, rfl, rfl, fun q hq => absurd hq (Nat.not_lt_zero q)⟩
  | succ cnt ih =>
    intro m res hok
    rw [List.range'_succ, List.foldlM_cons] at hok
    cases hcir : circlesOf bins0 bins1 w m with
    | error e => simp [stepCM, hcir] at hok
    | ok cs =>
      rw [stepCM] at hok
      rw [hcir] at hok
      simp only [exceptMapOk, exceptOkBind] at hok
      rw [colorStep_spec rand points m] at hok
      rw [foldCM_frames bins0 bins1 true w rand points _ _ _ _] at hok
      cases hf : List.foldlM (stepCM bins0 bins1 true w rand points)
          ((specColorState points rand (m + 1)).1,
            (specColorState points rand (m + 1)).2, [])
          (List.range' (m + 1) cnt) with
      | error e => rw [hf] at hok; simp at hok
      | ok res' =>
        rw [hf] at hok
        simp only [exceptMapOk, Except.ok.injEq] at hok
        obtain ⟨h1, h2, h3, h4⟩ := ih (m + 1) res' hf
        have hm : m + 1 + cnt = m + (cnt + 1) := by omega
        rw [← hok]
        refine ⟨by rw [h1, hm], by rw [h2, hm], by simp [h3], ?_⟩
        intro q hq
        cases q with
        | zero =>
          simp only [List.nil_append, List.singleton_append, List.getD_cons_zero]
          rfl
        | succ q =>
          simp only [List.nil_append, List.singleton_append, List.getD_cons_succ]
          have hq1 : m + 1 + q = m + (q + 1) := by omega
          rw [h4 q (by omega), hq1]

/-! ### C10: the background-color recurrence -/

/-- C10: in `circle_mode` with color changing enabled, whenever the render
succeeds the background color of frame `i` follows the claim's recurrence:
starting from `(1, 1, 1)` before the first frame, an emphasis-flagged frame
shows a fresh triple of draws from the random stream, and any other frame
shows the previous color multiplied componentwise by `0.9`; the render also
produces exactly one frame per `bins0` frame. -/
theorem c10_background_color (bins0 : List (List ℚ))
    (bins1 : Option (List (List ℚ))) (w : ℚ) (rand : ℕ → ℚ) (points : List ℕ)
    (frames : List (PyFrame ℚ)) (i : ℕ)
    (hp : find_points bins0 (27 / 30) 7 = Except.ok points)
    (hc : circle_mode bins0 bins1 true w rand = Except.ok frames)
    (hi : i < frames.length) :
    (frames.getD i defFrame).bg = specColor points rand i ∧
      frames.length = cols bins0 := by
  rw [circle_mode, if_pos rfl, hp] at hc
  simp only [exceptBindEq, exceptOkBind] at hc
  rw [List.range_eq_range'] at hc
  cases hf : List.foldlM (stepCM bins0 bins1 true w rand points)
      ((1, 1, 1), 0, []) (List.range' 0 (cols bins0)) with
  | error e => rw [hf] at hc; simp at hc
  | ok res =>
    rw [hf] at hc
    simp only [exceptMapOk, Except.ok.injEq] at hc
    have h0 : (((1 : ℚ), (1 : ℚ), (1 : ℚ)), 0, ([] : List (PyFrame ℚ))) =
        ((specColorState points rand 0).1, (specColorState points rand 0).2,
          ([] : List (PyFrame ℚ))) := rfl
    rw [h0] at hf
    obtain ⟨_h1, _h2, h3, h4⟩ := foldCM_spec bins0 bins1 w rand points
      (cols bins0) 0 res hf
    rw [← hc] at hi ⊢
    rw [h3] at hi
    refine ⟨?_, h3⟩
    have := h4 i hi
    simpa using this

/-- C10 witness: a mono render of the two-frame band `[[0, 1]]` with the
stream `rand n = n / 10`: frame `0` is emphasis-flagged and shows the fresh
draws `(0, 1/10, 2/10)`; frame `1` shows them decayed by `0.9`. -/
theorem c10_witness :
    find_points [[(0 : ℚ), 1]] (27 / 30) 7 = Except.ok [0] ∧
      circle_mode [[(0 : ℚ), 1]] none true 15 (fun n => (n : ℚ) / 10) =
        Except.ok
          ([⟨(0, 1 / 10, 2 / 10), [⟨(1 / 2, 1 / 2), 0, "magenta", 15⟩]⟩,
            ⟨(0, 9 / 100, 18 / 100), [⟨(1 / 2, 1 / 2), 1 / 2, "magenta", 15⟩]⟩] :
            List (PyFrame ℚ)) ∧
      ((([⟨(0, 1 / 10, 2 / 10), [⟨(1 / 2, 1 / 2), 0, "magenta", 15⟩]⟩,
            ⟨(0, 9 / 100, 18 / 100), [⟨(1 / 2, 1 / 2), 1 / 2, "magenta", 15⟩]⟩] :
            List (PyFrame ℚ)).getD 1 defFrame).bg =
          specColor [0] (fun n => (n : ℚ) / 10) 1 ∧
        ([⟨(0, 1 / 10, 2 / 10), [⟨(1 / 2, 1 / 2), 0, "magenta", 15⟩]⟩,
            ⟨(0, 9 / 100, 18 / 100), [⟨(1 / 2, 1 / 2), 1 / 2, "magenta", 15⟩]⟩] :
            List (PyFrame ℚ)).length = cols [[(0 : ℚ), 1]]) := by
  refine ⟨by decide, by decide, ?_⟩
  exact c10_background_color [[(0 : ℚ), 1]] none 15 (fun n => (n : ℚ) / 10)
    [0] _ 1 (by decide) (by decide) (by decide)

/-! ### C8: no frame-count validation in stereo mode -/

theorem npGet_isOk {β : Type} (m : List (List β)) (j i : ℕ) (hj : j < m.length)
    (hi : i < (m.getD j []).length) : ∃ x, npGet m j i = Except.ok x := by
  rw [List.getD_eq_getElem m [] hj] at hi
  refine ⟨m[j][i], ?_⟩
  unfold npGet
  rw [List.getElem?_eq_getElem hj]
  show (match m[j][i]? with
    | none => Except.error PyError.indexError
    | some x => Except.ok x) = Except.ok m[j][i]
  rw [List.getElem?_eq_getElem hi]

theorem mapM_ok {β γ : Type} (f : β → Except PyError γ) :
    ∀ l : List β, (∀ x ∈ l, ∃ y, f x = Except.ok y) →
      ∃ ys : List γ, l.mapM f = Except.ok ys := by
  intro l
  induction l with
  | nil => intro _; exact ⟨[], rfl⟩
  | cons x xs ih =>
    intro hall
    obtain ⟨y, hy⟩ := hall x (by simp)
    obtain ⟨ys, hys⟩ := ih (fun z hz => hall z (by simp [hz]))
    refine ⟨y :: ys, ?_⟩
    rw [List.mapM_cons, hy]
    simp only [exceptOkBind]
    rw [hys]
    rfl

theorem circlesOf_ok (bins0 bins1 : List (List ℚ)) (w : ℚ) (i : ℕ)
    (hrect : ∀ r ∈ bins0, r.length = cols bins0)
    (hrows : bins0.length ≤ bins1.length)
    (hcols : ∀ r ∈ bins1, cols bins0 ≤ r.length)
    (hi : i < cols bins0) :
    ∃ cs, circlesOf bins0 (some bins1) w i = Except.ok cs := by
  rw [circlesOf]
  apply mapM_ok
  intro j hj
  rw [List.mem_range] at hj
  have h0 : i < (bins0.getD j []).length := by
    rw [List.getD_eq_getElem bins0 [] hj, hrect bins0[j] (List.getElem_mem hj)]
    exact hi
  have h1 : j < bins1.length := lt_of_lt_of_le hj hrows
  have h2 : i < (bins1.getD j []).length := by
    rw [List.getD_eq_getElem bins1 [] h1]
    exact lt_of_lt_of_le hi (hcols bins1[j] (List.getElem_mem h1))
  obtain ⟨v0, hv0⟩ := npGet_isOk bins0 j i hj h0
  obtain ⟨v1, hv1⟩ := npGet_isOk bins1 j i h1 h2
  rw [hv0, hv1]
  exact ⟨_, rfl⟩

theorem foldCM_count (bins0 : List (List ℚ)) (bins1 : Option (List (List ℚ)))
    (cc : Bool) (w : ℚ) (rand : ℕ → ℚ) (points : List ℕ) :
    ∀ (l : List ℕ) (s : (ℚ × ℚ × ℚ) × ℕ × List (PyFrame ℚ)),
      (∀ i ∈ l, ∃ cs, circlesOf bins0 bins1 w i = Except.ok cs) →
      ∃ res, List.foldlM (stepCM bins0 bins1 cc w rand points) s l =
          Except.ok res ∧ res.2.2.length = s.2.2.length + l.length := by
  intro l
  induction l with
  | nil => intro s _; exact ⟨s, by simp, by simp⟩
  | cons i l ih =>
    intro s hall
    obtain ⟨cs, hcs⟩ := hall i (by simp)
    obtain ⟨res, hres, hlen⟩ := ih
      ((colorStep cc rand points i (s.1, s.2.1)).1,
        (colorStep cc rand points i (s.1, s.2.1)).2,
        s.2.2 ++ [⟨(colorStep cc rand points i (s.1, s.2.1)).1, cs⟩])
      (fun j hj => hall j (by simp [hj]))
    refine ⟨res, ?_, ?_⟩
    · rw [List.foldlM_cons, stepCM, hcs]
      simp only [exceptMapOk, exceptOkBind]
      exact hres
    · rw [hlen]
      simp only [List.length_append, List.length_cons, List.length_nil]
      omega

/-- C8 (counterexample): the claim says stereo bin arrays with differing frame
counts make `circle_mode` fail with `ValueError`.  With `bins0` one frame and
`bins1` two frames the render succeeds, producing exactly one frame and
silently ignoring the second `bins1` frame. -/
theorem c8_counterexample :
    cols [[(1 : ℚ)]] ≠ cols [[(1 : ℚ), 2]] ∧
      circle_mode [[(1 : ℚ)]] (some [[1, 2]]) false 15 (fun _ => 0) =
        Except.ok ([⟨(1, 1, 1), [⟨(1 / 2, 1 / 2), 1 / 2, "magenta", 15⟩]⟩] :
          List (PyFrame ℚ)) := by
  constructor
  · decide
  · decide

/-- C8 (amended): `circle_mode` performs no frame-count validation: with color
changing off, whenever `bins1` has at least as many bands and frames as
`bins0` (in particular when it has strictly more frames), the stereo render
returns normally with exactly one output frame per `bins0` frame, silently
truncating `bins1` — no `ValueError` is ever raised on this path.  (When
`bins1` is shorter than an access demands, Python instead raises
`IndexError`.) -/
theorem c8_amended_truncation (bins0 bins1 : List (List ℚ)) (w : ℚ)
    (rand : ℕ → ℚ)
    (hrect : ∀ r ∈ bins0, r.length = cols bins0)
    (hrows : bins0.length ≤ bins1.length)
    (hcols : ∀ r ∈ bins1, cols bins0 ≤ r.length) :
    (circle_mode bins0 (some bins1) false w rand).map List.length =
      Except.ok (cols bins0) := by
  rw [circle_mode, if_neg (by simp)]
  simp only [exceptBindEq, exceptOkBind]
  obtain ⟨res, hres, hlen⟩ := foldCM_count bins0 (some bins1) false w rand []
    (List.range (cols bins0)) ((1, 1, 1), 0, [])
    (fun i hi => circlesOf_ok bins0 bins1 w i hrect hrows hcols
      (List.mem_range.mp hi))
  rw [hres]
  simp only [exceptMapOk, exceptMapMap]
  rw [hlen]
  simp

/-- C8 witness: the amended truncation theorem evaluated at a one-band,
two-frame `bins0` and a one-band, three-frame `bins1`. -/
theorem c8_witness :
    (∀ r ∈ [[(1 : ℚ), 2]], r.length = cols [[(1 : ℚ), 2]]) ∧
      ([[(1 : ℚ), 2]] : List (List ℚ)).length ≤
        ([[(1 : ℚ), 2, 3]] : List (List ℚ)).length ∧
      (∀ r ∈ [[(1 : ℚ), 2, 3]], cols [[(1 : ℚ), 2]] ≤ r.length) ∧
      (circle_mode [[(1 : ℚ), 2]] (some [[1, 2, 3]]) false 15
          (fun _ => 0)).map List.length = Except.ok (cols [[(1 : ℚ), 2]]) :=
  ⟨by decide, by decide, by decide,
    c8_amended_truncation [[(1 : ℚ), 2]] [[1, 2, 3]] 15 (fun _ => 0)
      (by decide) (by decide) (by decide)⟩
